import Mathlib

/-!
# Verification of the CV-Snap skill-graph match-scoring engine

Shallow embedding of `src/backend/neo4j_service.py`: the skill upsert
(`create_skill_nodes`), the candidate-skill linking (`link_candidate_skills`),
the match scorer (`calculate_candidate_job_match` and
`_calculate_detailed_scores`) and the ranker (`get_all_candidates_for_job`).

Numeric values that Python holds as ints/floats are modelled as `ℚ`
(exact arithmetic); Python's `round(x, 1)` (banker's rounding, half to even)
is modelled by `pyRound1`. The Neo4j graph is modelled explicitly: skill
nodes as a partial map from canonical name to node record, `HAS_SKILL`
edges as a list of edge records (so that edge duplication is expressible).
-/

namespace CVSnap

/-! ## Python `round(x, 1)`: round half to even at one decimal -/

/-- Round a rational to the nearest integer, ties to the even integer —
the semantics of Python 3 `round` (on exact values). -/
def roundHalfEven (y : ℚ) : ℤ :=
  let n := ⌊y⌋
  let f := y - n
  if f < 1/2 then n
  else if 1/2 < f then n + 1
  else if Even n then n else n + 1

/-- Python's `round(x, 1)`: scale by 10, round half to even, scale back. -/
def pyRound1 (x : ℚ) : ℚ := (roundHalfEven (x * 10) : ℚ) / 10

/-! ## Rows returned by the Cypher queries in `calculate_candidate_job_match` -/

/-- One row of the matched-skill join (candidate `HAS_SKILL` ∩ job
`REQUIRES_SKILL`), with the `coalesce` defaults already applied. -/
structure SkillMatch where
  skill : String
  candidate_proficiency : ℚ
  candidate_years : ℚ
  job_importance : ℚ
  required_years : ℚ
  is_required : Bool
  deriving Repr, DecidableEq

/-- One row of the all-required-skills scan for the job. -/
structure RequiredSkill where
  skill : String
  importance : ℚ
  is_required : Bool
  min_years : ℚ
  deriving Repr, DecidableEq

/-- Well-formedness of matched-skill rows per the data model (§3 of the
spec): proficiency, years and importance are nonnegative. The link
operations do not enforce this, so the scorer's range guarantees only hold
for graphs whose edge attributes respect it. -/
def NonnegRows (skill_matches : List SkillMatch) : Prop :=
  ∀ m ∈ skill_matches,
    0 ≤ m.candidate_proficiency ∧ 0 ≤ m.candidate_years ∧ 0 ≤ m.job_importance

/-! ## `_calculate_detailed_scores`: the four sub-scores -/

/-- Experience factor of one matched skill (`exp_factor` in the source):
`clamp(candidate_years / required_years, 0.6, 2.2)` when `required_years > 0`,
else `min(candidate_years / 2, 1.8)`. -/
def expFactor (candidate_years required_years : ℚ) : ℚ :=
  if 0 < required_years then max (min (candidate_years / required_years) 2.2) 0.6
  else min (candidate_years / 2) 1.8

/-- Proficiency factor (`prof_factor`): `min(candidate_proficiency / 10, 1.0)`,
multiplied by 1.1 when at least 0.7. -/
def profFactor (candidate_proficiency : ℚ) : ℚ :=
  let pf := min (candidate_proficiency / 10) 1
  if 0.7 ≤ pf then pf * 1.1 else pf

/-- Per-skill contribution to the quality score (`skill_score`). -/
def skillScore (m : SkillMatch) : ℚ :=
  profFactor m.candidate_proficiency * expFactor m.candidate_years m.required_years
    * m.job_importance

/-- Skill-quality sub-score (40% weight): importance-weighted mean of the
per-skill scores, times 40; 0 when the total importance weight is not
positive. -/
def qualityScore (skill_matches : List SkillMatch) : ℚ :=
  let num := (skill_matches.map skillScore).sum
  let den := (skill_matches.map (·.job_importance)).sum
  if 0 < den then num / den * 40 else 0

/-- Experience-level sub-score (20% weight): step function of the candidate's
total years, mirroring the nested `if` chain of the source. -/
def experienceScore (candidate_total_years : ℚ) : ℚ :=
  if 7 ≤ candidate_total_years then
    if 10 ≤ candidate_total_years then 20
    else if 8 ≤ candidate_total_years then 18
    else 15
  else if 5 ≤ candidate_total_years then 10
  else if 3 ≤ candidate_total_years then 6
  else 2

/-- Skill-coverage sub-score (35% weight): `min(skill_coverage, 100) * 0.35`
where `skill_coverage = matched / total * 100`. Only evaluated by the scorer
when `total ≠ 0`. -/
def coverageScore (matched total : ℕ) : ℚ :=
  min (((matched : ℚ) / total) * 100) 100 * 0.35

/-- Critical-skills sub-score (5% weight): among the required rows flagged
`is_required`, the fraction whose skill appears among the matched rows,
times 5; the full 5 when no row is flagged. -/
def criticalScore (skill_matches : List SkillMatch) (all_required : List RequiredSkill) : ℚ :=
  let total_critical := all_required.countP (fun r => r.is_required)
  let present := all_required.countP
    (fun r => r.is_required && skill_matches.any (fun m => m.skill == r.skill))
  if 0 < total_critical then ((present : ℚ) / total_critical) * 5 else 5

/-! ## `_calculate_detailed_scores`: boosts, caps, and rounding -/

/-- Occurrence of `sub` as a contiguous run at the head of `s`. -/
def startsWithChars : List Char → List Char → Bool
  | [], _ => true
  | _ :: _, [] => false
  | c :: cs, d :: ds => c == d && startsWithChars cs ds

/-- Occurrence of `sub` as a contiguous run anywhere in `s`
(Python's `sub in s`). -/
def occursIn (sub : List Char) : List Char → Bool
  | [] => sub.isEmpty
  | d :: ds => startsWithChars sub (d :: ds) || occursIn sub ds

/-- `sub in s` on strings. -/
def strContains (s sub : String) : Bool := occursIn sub.toList s.toList

/-- The leadership test: some matched skill's lower-cased name contains
"lead", "senior" or "manage". -/
def hasLeadership (skill_matches : List SkillMatch) : Bool :=
  skill_matches.any (fun m =>
    strContains m.skill.toLower "lead" || strContains m.skill.toLower "senior"
      || strContains m.skill.toLower "manage")

/-- The rounded breakdown dictionary returned by `_calculate_detailed_scores`. -/
structure Breakdown where
  coverage_score : ℚ
  quality_score : ℚ
  experience_score : ℚ
  critical_skills_score : ℚ
  matched_skills : ℕ
  total_required : ℕ
  candidate_years : ℚ
  deriving Repr, DecidableEq

/-- Return value of `_calculate_detailed_scores`; the zero-required-skills
early return carries no breakdown (`{}` in the source). -/
structure DetailedScores where
  final_score : ℚ
  skill_coverage : ℚ
  breakdown : Option Breakdown
  deriving Repr, DecidableEq

/-- The pre-adjustment final score: the sum of the four weighted sub-scores
(`final_score = coverage_score + quality_score + experience_score +
critical_score` in the source). -/
def baseScore (skill_matches : List SkillMatch) (all_required : List RequiredSkill)
    (candidate_total_years : ℚ) : ℚ :=
  coverageScore skill_matches.length all_required.length + qualityScore skill_matches
    + experienceScore candidate_total_years + criticalScore skill_matches all_required

/-- The two boost adjustments: the senior-coverage multiplier (×1.15 when
coverage ≥ 80, ×1.10 when 60 ≤ coverage < 80, both only when total years ≥ 7)
followed by the flat +5 leadership bonus (total years ≥ 5). -/
def applyBoosts (base skill_coverage candidate_total_years : ℚ)
    (leadership : Bool) : ℚ :=
  let boosted :=
    if 60 ≤ skill_coverage ∧ 7 ≤ candidate_total_years then
      if 80 ≤ skill_coverage then base * 1.15 else base * 1.10
    else base
  if leadership ∧ 5 ≤ candidate_total_years then boosted + 5 else boosted

/-- The caps applied after the boosts: ceiling of 95, forced 0 when no skill
matched, ceiling 30 when coverage < 20, ceiling 55 when coverage < 40. -/
def applyCaps (score skill_coverage : ℚ) (matched_count : ℕ) : ℚ :=
  let capped := min score 95
  if matched_count = 0 then 0
  else if skill_coverage < 20 then min capped 30
  else if skill_coverage < 40 then min capped 55
  else capped

/-- `_calculate_detailed_scores(skill_matches, all_required,
candidate_total_years)`. -/
def calculateDetailedScores (skill_matches : List SkillMatch)
    (all_required : List RequiredSkill) (candidate_total_years : ℚ) : DetailedScores :=
  let total_required := all_required.length
  let matched_count := skill_matches.length
  if total_required = 0 then ⟨0, 0, none⟩
  else
    let skill_coverage : ℚ := ((matched_count : ℚ) / total_required) * 100
    let final := applyCaps
      (applyBoosts (baseScore skill_matches all_required candidate_total_years)
        skill_coverage candidate_total_years (hasLeadership skill_matches))
      skill_coverage matched_count
    ⟨pyRound1 final, pyRound1 skill_coverage,
      some ⟨pyRound1 (coverageScore matched_count total_required),
        pyRound1 (qualityScore skill_matches),
        pyRound1 (experienceScore candidate_total_years),
        pyRound1 (criticalScore skill_matches all_required),
        matched_count, total_required, candidate_total_years⟩⟩

/-! ## `calculate_candidate_job_match` -/

/-- The graph-retrieval outcome consumed by the scorer: either the three
query results (matched-skill rows, required-skill rows, candidate total
years — 0 when the candidate row is absent), or a failure raised by the
driver. -/
abbrev FetchOutcome := Except String (List SkillMatch × List RequiredSkill × ℚ)

/-- The fields of the dictionary returned by `calculate_candidate_job_match`
that the specification describes (the per-skill details and breakdown are
carried by `DetailedScores`). -/
structure MatchResult where
  candidate_id : String
  job_id : String
  match_score : ℚ
  skill_coverage : ℚ
  matched_skills : ℕ
  total_required_skills : ℕ
  deriving Repr, DecidableEq

/-- `calculate_candidate_job_match(candidate_id, job_id)`: on a successful
fetch, score the rows; on any retrieval failure, return the zeroed sentinel
result (`except` branch of the source). -/
def calculateCandidateJobMatch (candidate_id job_id : String)
    (fetch : FetchOutcome) : MatchResult :=
  match fetch with
  | .error _ => ⟨candidate_id, job_id, 0, 0, 0, 1⟩
  | .ok (skill_matches, all_required, candidate_total_years) =>
      let scores := calculateDetailedScores skill_matches all_required candidate_total_years
      ⟨candidate_id, job_id, scores.final_score, scores.skill_coverage,
        skill_matches.length, all_required.length⟩

/-! ## `create_skill_nodes`: Skill node upsert (MERGE on canonical name) -/

/-- Removal of leading and trailing whitespace (Python `strip()`),
character-level. -/
def trimChars (s : List Char) : List Char :=
  ((s.dropWhile Char.isWhitespace).reverse.dropWhile Char.isWhitespace).reverse

/-- Python `skill.get('name', '').lower().strip()`: lower-case every
character, then strip surrounding whitespace. -/
def normalizeSkillName (s : String) : String :=
  String.mk (trimChars (s.data.map Char.toLower))

/-- A `Skill` node's attributes. -/
structure SkillNode where
  category : String
  level : ℤ
  created_at : ℕ
  deriving Repr, DecidableEq

/-- The skill sub-graph: at most one node per canonical name, looked up by
name (the `MERGE` key). -/
abbrev SkillState := String → Option SkillNode

/-- One entry of the `skills` list passed to `create_skill_nodes`, with the
`level`/`proficiency`/1 defaulting already applied. -/
structure SkillInput where
  name : String
  category : String
  level : ℤ
  deriving Repr, DecidableEq

/-- One iteration of the `create_skill_nodes` loop: skip empty normalized
names; otherwise `MERGE (s:Skill {name})` — `ON CREATE` sets category, level
and creation time, `ON MATCH` sets
`level = CASE WHEN $level > s.level THEN $level ELSE s.level END`. -/
def upsertSkill (st : SkillState) (inp : SkillInput) (now : ℕ) : SkillState :=
  let nm := normalizeSkillName inp.name
  if nm = "" then st
  else fun n =>
    if n = nm then
      match st nm with
      | none => some ⟨inp.category, inp.level, now⟩
      | some node =>
          some { node with level := if node.level < inp.level then inp.level else node.level }
    else st n

/-- `create_skill_nodes(skills)`: fold of the per-skill upsert, also
collecting the returned canonical names (empty names are skipped and do not
count). -/
def createSkillNodes (st : SkillState) (skills : List SkillInput) (now : ℕ) :
    SkillState × List String :=
  skills.foldl (fun acc inp =>
    let nm := normalizeSkillName inp.name
    if nm = "" then acc
    else (upsertSkill acc.1 inp now, acc.2 ++ [nm])) (st, [])

/-! ## `link_candidate_skills`: HAS_SKILL edge upsert -/

/-- A `HAS_SKILL` edge record. Edges are kept in a list so that duplication
of edges is expressible (the `MERGE` relationship-uniqueness guarantee is a
theorem, not a representation artifact). -/
structure HasSkillEdge where
  candidate : String
  skill : String
  proficiency : ℤ
  years_experience : ℤ
  created_at : ℕ
  deriving Repr, DecidableEq

/-- One entry of the `skills` list passed to `link_candidate_skills`, with
the `proficiency`/`years_experience` defaults (1 and 0) already applied. -/
structure CandSkillInput where
  name : String
  proficiency : ℤ
  years_experience : ℤ
  deriving Repr, DecidableEq

/-- The part of the graph `link_candidate_skills` touches: which candidate
ids and canonical skill names have nodes, and the `HAS_SKILL` edges. -/
structure CandGraph where
  candidateExists : String → Bool
  skillExists : String → Bool
  edges : List HasSkillEdge

/-- The `MERGE` pattern match: edge between this candidate and this skill. -/
def edgeMatches (candidate_id nm : String) (e : HasSkillEdge) : Bool :=
  e.candidate == candidate_id && e.skill == nm

/-- One iteration of the `link_candidate_skills` loop: skip empty normalized
names; the two `MATCH` clauses require both endpoint nodes to exist (no edge
otherwise); `MERGE (c)-[r:HAS_SKILL]->(s)` then updates every matched edge's
proficiency and years (`ON MATCH`) or creates one edge with them and a
creation time (`ON CREATE`). -/
def linkOneSkill (g : CandGraph) (candidate_id : String) (s : CandSkillInput)
    (now : ℕ) : CandGraph :=
  let nm := normalizeSkillName s.name
  if nm = "" then g
  else if g.candidateExists candidate_id && g.skillExists nm then
    if g.edges.any (edgeMatches candidate_id nm) then
      { g with edges := g.edges.map (fun e =>
          if edgeMatches candidate_id nm e then
            { e with proficiency := s.proficiency, years_experience := s.years_experience }
          else e) }
    else
      { g with edges := g.edges ++ [⟨candidate_id, nm, s.proficiency, s.years_experience, now⟩] }
  else g

/-- `link_candidate_skills(candidate_id, skills)`. -/
def linkCandidateSkills (g : CandGraph) (candidate_id : String)
    (skills : List CandSkillInput) (now : ℕ) : CandGraph :=
  skills.foldl (fun acc s => linkOneSkill acc candidate_id s now) g

/-! ## `get_all_candidates_for_job`: the ranker -/

/-- A `Candidate` node as the ranker's initial query returns it. -/
structure Candidate where
  id : String
  name : String
  email : String
  deriving Repr, DecidableEq

/-- One entry of the ranker's output: a scorer result enriched with the
candidate's name and email (`match_result.update(...)` in the source). -/
structure RankedEntry where
  result : MatchResult
  name : String
  email : String
  deriving Repr, DecidableEq

/-- Descending order on match scores: `a` may come before `b` when
`a.result.match_score ≥ b.result.match_score` (Python
`sort(key=lambda x: x['match_score'], reverse=True)`). -/
def rankedGE (a b : RankedEntry) : Prop :=
  b.result.match_score ≤ a.result.match_score

instance : DecidableRel rankedGE := fun a b =>
  inferInstanceAs (Decidable (b.result.match_score ≤ a.result.match_score))

instance : IsTotal RankedEntry rankedGE :=
  ⟨fun a b => le_total b.result.match_score a.result.match_score⟩

instance : IsTrans RankedEntry rankedGE :=
  ⟨fun _ _ _ h1 h2 => le_trans h2 h1⟩

/-- `get_all_candidates_for_job(job_id)`: score every candidate; a candidate
whose scoring raises is skipped (`try/except` around the loop body) and the
rest continue; the collected results are sorted by `match_score`
descending. The per-candidate computation (the queries feeding
`calculate_candidate_job_match`) is abstracted as `score`, failure included. -/
def getAllCandidatesForJob (candidates : List Candidate)
    (score : Candidate → Except String MatchResult) : List RankedEntry :=
  let results := candidates.filterMap (fun c =>
    (score c).toOption.map (fun r => RankedEntry.mk r c.name c.email))
  List.insertionSort rankedGE results

/-! ## Helper lemmas -/

theorem roundHalfEven_le {y : ℚ} {z : ℤ} (h : y ≤ (z : ℚ)) : roundHalfEven y ≤ z := by
  have hfl : ⌊y⌋ ≤ z := by
    have := Int.floor_le_floor h
    simpa using this
  simp only [roundHalfEven]
  split
  · exact hfl
  · next h1 =>
    have h1' : (1:ℚ)/2 ≤ y - ⌊y⌋ := not_lt.mp h1
    have hfy : (⌊y⌋ : ℚ) ≤ y := Int.floor_le y
    have hz : ⌊y⌋ < z := by
      have : (⌊y⌋ : ℚ) < (z : ℚ) := by linarith
      exact_mod_cast this
    split
    · omega
    · split <;> omega

theorem le_roundHalfEven {y : ℚ} {z : ℤ} (h : (z : ℚ) ≤ y) : z ≤ roundHalfEven y := by
  have hfl : z ≤ ⌊y⌋ := Int.le_floor.mpr h
  simp only [roundHalfEven]
  split
  · exact hfl
  · split
    · omega
    · split <;> omega

theorem pyRound1_nonneg {x : ℚ} (h : 0 ≤ x) : 0 ≤ pyRound1 x := by
  have h0 : ((0 : ℤ) : ℚ) ≤ x * 10 := by push_cast; linarith
  have := le_roundHalfEven h0
  have hq : (0 : ℚ) ≤ (roundHalfEven (x * 10) : ℚ) := by exact_mod_cast this
  simp only [pyRound1]
  positivity

theorem pyRound1_le_of_le_int {x : ℚ} {z : ℤ} (h : x ≤ (z : ℚ)) : pyRound1 x ≤ (z : ℚ) := by
  have h10 : x * 10 ≤ ((z * 10 : ℤ) : ℚ) := by push_cast; linarith
  have := roundHalfEven_le h10
  simp only [pyRound1]
  rw [div_le_iff₀ (by norm_num : (0:ℚ) < 10)]
  calc ((roundHalfEven (x * 10) : ℤ) : ℚ) ≤ ((z * 10 : ℤ) : ℚ) := by exact_mod_cast this
    _ = (z : ℚ) * 10 := by push_cast; ring

theorem pyRound1_zero : pyRound1 0 = 0 := by
  norm_num [pyRound1, roundHalfEven]

theorem profFactor_nonneg {p : ℚ} (hp : 0 ≤ p) : 0 ≤ profFactor p := by
  simp only [profFactor]
  have h1 : (0:ℚ) ≤ min (p/10) 1 := le_min (by positivity) (by norm_num)
  split
  · nlinarith
  · exact h1

theorem profFactor_le (p : ℚ) : profFactor p ≤ 1.1 := by
  simp only [profFactor]
  have h1 : min (p/10) 1 ≤ 1 := min_le_right _ _
  split
  · nlinarith
  · linarith [(by norm_num : (1:ℚ) ≤ 1.1)]

theorem expFactor_nonneg {cy : ℚ} (hcy : 0 ≤ cy) (ry : ℚ) : 0 ≤ expFactor cy ry := by
  simp only [expFactor]
  split
  · have : (0.6:ℚ) ≤ max (min (cy/ry) 2.2) 0.6 := le_max_right _ _
    linarith [(by norm_num : (0:ℚ) ≤ 0.6)]
  · exact le_min (by positivity) (by norm_num)

theorem expFactor_le (cy ry : ℚ) : expFactor cy ry ≤ 2.2 := by
  simp only [expFactor]
  split
  · exact max_le (min_le_right _ _) (by norm_num)
  · calc min (cy/2) 1.8 ≤ 1.8 := min_le_right _ _
      _ ≤ 2.2 := by norm_num

theorem skillScore_nonneg {m : SkillMatch} (h1 : 0 ≤ m.candidate_proficiency)
    (h2 : 0 ≤ m.candidate_years) (h3 : 0 ≤ m.job_importance) : 0 ≤ skillScore m :=
  mul_nonneg (mul_nonneg (profFactor_nonneg h1) (expFactor_nonneg h2 _)) h3

theorem skillScore_le {m : SkillMatch} (h1 : 0 ≤ m.candidate_proficiency)
    (h2 : 0 ≤ m.candidate_years) (h3 : 0 ≤ m.job_importance) :
    skillScore m ≤ 2.42 * m.job_importance := by
  have hp := profFactor_le m.candidate_proficiency
  have hpn := profFactor_nonneg h1
  have he := expFactor_le m.candidate_years m.required_years
  have hen := expFactor_nonneg h2 m.required_years
  have hpe : profFactor m.candidate_proficiency * expFactor m.candidate_years m.required_years
      ≤ 1.1 * 2.2 := mul_le_mul hp he hen (by norm_num)
  have := mul_le_mul_of_nonneg_right hpe h3
  simp only [skillScore]
  nlinarith

theorem qualityScore_nonneg {ms : List SkillMatch} (h : NonnegRows ms) :
    0 ≤ qualityScore ms := by
  simp only [qualityScore]
  split
  · next hden =>
    refine mul_nonneg (div_nonneg ?_ (le_of_lt hden)) (by norm_num)
    refine List.sum_nonneg ?_
    intro x hx
    obtain ⟨m, hm, rfl⟩ := List.mem_map.mp hx
    exact skillScore_nonneg (h m hm).1 (h m hm).2.1 (h m hm).2.2
  · exact le_refl 0

theorem qualityScore_le {ms : List SkillMatch} (h : NonnegRows ms) :
    qualityScore ms ≤ 96.8 := by
  simp only [qualityScore]
  split
  · next hden =>
    have hnum : (ms.map skillScore).sum ≤ (ms.map (fun m => 2.42 * m.job_importance)).sum :=
      List.sum_le_sum (fun m hm => skillScore_le (h m hm).1 (h m hm).2.1 (h m hm).2.2)
    have hmul : (ms.map (fun m => 2.42 * m.job_importance)).sum
        = 2.42 * (ms.map (·.job_importance)).sum := List.sum_map_mul_left ms (·.job_importance) 2.42
    have hdiv : (ms.map skillScore).sum / (ms.map (·.job_importance)).sum ≤ 2.42 := by
      rw [div_le_iff₀ hden]
      calc (ms.map skillScore).sum ≤ 2.42 * (ms.map (·.job_importance)).sum := by
            rw [← hmul]; exact hnum
        _ = 2.42 * (ms.map (·.job_importance)).sum := rfl
    calc (ms.map skillScore).sum / (ms.map (·.job_importance)).sum * 40 ≤ 2.42 * 40 := by
          nlinarith [hdiv]
      _ = 96.8 := by norm_num
  · norm_num

theorem experienceScore_nonneg (y : ℚ) : 0 ≤ experienceScore y := by
  simp only [experienceScore]
  repeat' split
  all_goals norm_num

theorem experienceScore_le (y : ℚ) : experienceScore y ≤ 20 := by
  simp only [experienceScore]
  repeat' split
  all_goals norm_num

theorem coverageScore_nonneg (m t : ℕ) : 0 ≤ coverageScore m t := by
  simp only [coverageScore]
  have h1 : (0:ℚ) ≤ min (((m:ℚ)/t)*100) 100 := le_min (by positivity) (by norm_num)
  nlinarith

theorem coverageScore_le (m t : ℕ) : coverageScore m t ≤ 35 := by
  simp only [coverageScore]
  have h1 : min (((m:ℚ)/t)*100) 100 ≤ 100 := min_le_right _ _
  have h0 : (0:ℚ) ≤ min (((m:ℚ)/t)*100) 100 := le_min (by positivity) (by norm_num)
  nlinarith

theorem criticalScore_nonneg (ms : List SkillMatch) (req : List RequiredSkill) :
    0 ≤ criticalScore ms req := by
  simp only [criticalScore]
  split
  · positivity
  · norm_num

theorem criticalScore_le (ms : List SkillMatch) (req : List RequiredSkill) :
    criticalScore ms req ≤ 5 := by
  simp only [criticalScore]
  split
  · next htot =>
    have hle : req.countP (fun r => r.is_required && ms.any (fun m => m.skill == r.skill))
        ≤ req.countP (fun r => r.is_required) :=
      List.countP_mono_left (fun r _ hr => by
        simp only [Bool.and_eq_true] at hr
        exact hr.1)
    have htotq : (0:ℚ) < (req.countP (fun r => r.is_required) : ℚ) := by exact_mod_cast htot
    have hratio : ((req.countP (fun r => r.is_required && ms.any (fun m => m.skill == r.skill)) : ℕ) : ℚ)
        / (req.countP (fun r => r.is_required) : ℚ) ≤ 1 := by
      rw [div_le_one htotq]
      exact_mod_cast hle
    nlinarith
  · norm_num

theorem baseScore_nonneg {ms : List SkillMatch} (req : List RequiredSkill) (y : ℚ)
    (h : NonnegRows ms) : 0 ≤ baseScore ms req y := by
  simp only [baseScore]
  have := coverageScore_nonneg ms.length req.length
  have := qualityScore_nonneg h
  have := experienceScore_nonneg y
  have := criticalScore_nonneg ms req
  linarith

theorem applyBoosts_nonneg {base cov y : ℚ} {lead : Bool} (hb : 0 ≤ base) :
    0 ≤ applyBoosts base cov y lead := by
  simp only [applyBoosts]
  have h1 : 0 ≤ (if 60 ≤ cov ∧ 7 ≤ y then if 80 ≤ cov then base * 1.15 else base * 1.10
      else base) := by
    split
    · split <;> nlinarith
    · exact hb
  split
  · linarith
  · exact h1

theorem applyCaps_bounds {f cov : ℚ} (hf : 0 ≤ f) (matched : ℕ) :
    0 ≤ applyCaps f cov matched ∧ applyCaps f cov matched ≤ 95 := by
  simp only [applyCaps]
  have hmin0 : (0:ℚ) ≤ min f 95 := le_min hf (by norm_num)
  have hmin95 : min f 95 ≤ 95 := min_le_right _ _
  split
  · norm_num
  · split
    · exact ⟨le_min hmin0 (by norm_num), le_trans (min_le_left _ _) hmin95⟩
    · split
      · exact ⟨le_min hmin0 (by norm_num), le_trans (min_le_left _ _) hmin95⟩
      · exact ⟨hmin0, hmin95⟩

theorem roundHalfEven_eq_of_lt {y : ℚ} {n : ℤ} (h1 : (n:ℚ) ≤ y) (h2 : y - n < 1/2) :
    roundHalfEven y = n := by
  have hfl : ⌊y⌋ = n := Int.floor_eq_iff.mpr ⟨h1, by linarith⟩
  simp only [roundHalfEven, hfl]
  rw [if_pos h2]

theorem applyCaps_matched_zero (score skill_coverage : ℚ) :
    applyCaps score skill_coverage 0 = 0 := by
  simp [applyCaps]

theorem detailedScores_nil_matches (req : List RequiredSkill) (y : ℚ) :
    (calculateDetailedScores [] req y).final_score = 0 ∧
      (calculateDetailedScores [] req y).skill_coverage = 0 := by
  simp only [calculateDetailedScores]
  split
  · exact ⟨rfl, rfl⟩
  · simp [applyCaps_matched_zero, pyRound1_zero]

/-- C8: on any retrieval failure, `calculate_candidate_job_match` returns the
zeroed result with `match_score = 0`, `skill_coverage = 0`,
`matched_skills = 0` and the sentinel `total_required_skills = 1`, instead of
propagating the failure. -/
theorem retrieval_failure_returns_sentinel (candidate_id job_id err : String) :
    calculateCandidateJobMatch candidate_id job_id (.error err)
      = ⟨candidate_id, job_id, 0, 0, 0, 1⟩ := rfl

/-- C3: whenever the scoring result has `matched_skills = 0` — no matched
rows, a job with no required skills, or the failure path — the returned
`match_score` and `skill_coverage` are both 0. -/
theorem zero_matched_skills_zero_score (candidate_id job_id : String)
    (fetch : FetchOutcome)
    (h : (calculateCandidateJobMatch candidate_id job_id fetch).matched_skills = 0) :
    (calculateCandidateJobMatch candidate_id job_id fetch).match_score = 0 ∧
      (calculateCandidateJobMatch candidate_id job_id fetch).skill_coverage = 0 := by
  rcases fetch with err | ⟨ms, req, y⟩
  · exact ⟨rfl, rfl⟩
  · have hms : ms = [] := by
      simpa [calculateCandidateJobMatch] using h
    subst hms
    simpa [calculateCandidateJobMatch] using detailedScores_nil_matches req y

/-- C3 witness: a job with three required skills and no matched rows yields
`match_score = 0` and `skill_coverage = 0`. -/
theorem zero_matched_skills_zero_score_witness :
    (calculateCandidateJobMatch "c1" "j1" (.ok ([],
        [⟨"python", 9, true, 0⟩, ⟨"aws", 6, true, 0⟩, ⟨"sql", 5, true, 0⟩], 4))).matched_skills
        = 0 ∧
      (calculateCandidateJobMatch "c1" "j1" (.ok ([],
        [⟨"python", 9, true, 0⟩, ⟨"aws", 6, true, 0⟩, ⟨"sql", 5, true, 0⟩], 4))).match_score = 0 ∧
      (calculateCandidateJobMatch "c1" "j1" (.ok ([],
        [⟨"python", 9, true, 0⟩, ⟨"aws", 6, true, 0⟩, ⟨"sql", 5, true, 0⟩], 4))).skill_coverage
        = 0 := by
  refine ⟨rfl, ?_⟩
  exact zero_matched_skills_zero_score "c1" "j1" _ rfl

/-- C4 counterexample: one matched row against three required rows. The
returned `skill_coverage` is the rounded 33.3, not `100 * 1 / 3`. -/
theorem skill_coverage_not_exact_counterexample :
    (calculateCandidateJobMatch "c1" "j1" (.ok ([⟨"a", 5, 1, 5, 0, true⟩],
        [⟨"a", 5, true, 0⟩, ⟨"b", 5, true, 0⟩, ⟨"c", 5, true, 0⟩], 0))).matched_skills = 1 ∧
      (calculateCandidateJobMatch "c1" "j1" (.ok ([⟨"a", 5, 1, 5, 0, true⟩],
        [⟨"a", 5, true, 0⟩, ⟨"b", 5, true, 0⟩, ⟨"c", 5, true, 0⟩], 0))).total_required_skills
        = 3 ∧
      (calculateCandidateJobMatch "c1" "j1" (.ok ([⟨"a", 5, 1, 5, 0, true⟩],
        [⟨"a", 5, true, 0⟩, ⟨"b", 5, true, 0⟩, ⟨"c", 5, true, 0⟩], 0))).skill_coverage
        ≠ 100 * 1 / 3 := by
  refine ⟨rfl, rfl, ?_⟩
  have hr : roundHalfEven ((1 : ℚ) / 3 * 100 * 10) = 333 :=
    roundHalfEven_eq_of_lt (by norm_num) (by norm_num)
  have : (calculateCandidateJobMatch "c1" "j1" (.ok ([⟨"a", 5, 1, 5, 0, true⟩],
      [⟨"a", 5, true, 0⟩, ⟨"b", 5, true, 0⟩, ⟨"c", 5, true, 0⟩], 0))).skill_coverage
      = pyRound1 ((1 : ℚ) / 3 * 100) := by
    norm_num [calculateCandidateJobMatch, calculateDetailedScores]
  rw [this, pyRound1, hr]
  norm_num

/-- C4 amended: the returned `skill_coverage` equals
`100 * matched_skills / total_required_skills` rounded to one decimal
(Python banker's rounding), and equals 0 when `total_required_skills = 0`
or on the failure path. -/
theorem skill_coverage_formula (candidate_id job_id : String) (fetch : FetchOutcome) :
    (calculateCandidateJobMatch candidate_id job_id fetch).skill_coverage =
      match fetch with
      | .error _ => 0
      | .ok (ms, req, _) =>
          if req.length = 0 then 0
          else pyRound1 (100 * (ms.length : ℚ) / req.length) := by
  rcases fetch with err | ⟨ms, req, y⟩
  · rfl
  · simp only [calculateCandidateJobMatch, calculateDetailedScores]
    by_cases hreq : req.length = 0
    · simp [hreq]
    · simp only [hreq, if_neg (by exact hreq), ite_false]
      have : ((ms.length : ℚ) / req.length) * 100 = 100 * (ms.length : ℚ) / req.length := by
        ring
      simp [this]

/-- C2 counterexample: the scorer's input rows are not validated, and a
matched row with negative proficiency (nothing clamps it on ingestion)
drives the quality score, and hence the returned `match_score`, far below
0. -/
theorem match_score_negative_counterexample :
    (calculateCandidateJobMatch "c1" "j1" (.ok ([⟨"python", -1000, 0, 10, 1, true⟩],
        [⟨"python", 10, true, 1⟩], 0))).match_score < 0 := by
  norm_num [calculateCandidateJobMatch, calculateDetailedScores, baseScore, applyBoosts,
    applyCaps, coverageScore, qualityScore, skillScore, profFactor, expFactor,
    experienceScore, criticalScore, hasLeadership, strContains, occursIn, startsWithChars,
    pyRound1, roundHalfEven, List.countP, List.countP.go]

/-- C2 amended: for rows whose proficiency, years and importance are
nonnegative (as the data model prescribes; the code itself does not enforce
it), and for every candidate total years and every fetch outcome including
the failure path, the returned `match_score` lies in `[0, 95]`. -/
theorem match_score_in_range (candidate_id job_id : String) (fetch : FetchOutcome)
    (h : ∀ ms req y, fetch = .ok (ms, req, y) → NonnegRows ms) :
    0 ≤ (calculateCandidateJobMatch candidate_id job_id fetch).match_score ∧
      (calculateCandidateJobMatch candidate_id job_id fetch).match_score ≤ 95 := by
  rcases fetch with err | ⟨ms, req, y⟩
  · exact ⟨le_refl 0, by norm_num [calculateCandidateJobMatch]⟩
  · have hrows : NonnegRows ms := h ms req y rfl
    simp only [calculateCandidateJobMatch, calculateDetailedScores]
    by_cases hreq : req.length = 0
    · simp [hreq]
    · simp only [hreq, ite_false]
      have hbase : 0 ≤ baseScore ms req y := baseScore_nonneg req y hrows
      have hboost : 0 ≤ applyBoosts (baseScore ms req y)
          (((ms.length : ℚ) / req.length) * 100) y (hasLeadership ms) :=
        applyBoosts_nonneg hbase
      have hcaps := @applyCaps_bounds (applyBoosts (baseScore ms req y)
        (((ms.length : ℚ) / req.length) * 100) y (hasLeadership ms))
        (((ms.length : ℚ) / req.length) * 100) hboost ms.length
      refine ⟨pyRound1_nonneg hcaps.1, ?_⟩
      have h95 := pyRound1_le_of_le_int (z := 95) (by exact_mod_cast hcaps.2)
      exact_mod_cast h95

/-- C2 witness: the spec §8 scenario (python proficiency 8, years 5,
importance 9; candidate total years 6) has a match score inside `[0, 95]`. -/
theorem match_score_in_range_witness :
    0 ≤ (calculateCandidateJobMatch "c1" "j1" (.ok ([⟨"python", 8, 5, 9, 0, true⟩],
        [⟨"python", 9, true, 0⟩, ⟨"aws", 6, true, 0⟩], 6))).match_score ∧
      (calculateCandidateJobMatch "c1" "j1" (.ok ([⟨"python", 8, 5, 9, 0, true⟩],
        [⟨"python", 9, true, 0⟩, ⟨"aws", 6, true, 0⟩], 6))).match_score ≤ 95 :=
  match_score_in_range "c1" "j1" _ (by
    intro ms req y hmk
    cases hmk
    intro m hm
    simp only [List.mem_singleton] at hm
    subst hm
    exact ⟨by norm_num, by norm_num, by norm_num⟩)

/-- C1 counterexample: with one required skill matched at proficiency 10,
ten years against one required year, and importance 5, the four sub-scores
are 35, 96.8, 20 and 5 — summing to 156.8, above the claimed bound of
100. -/
theorem subscores_sum_gt_100_counterexample :
    100 < coverageScore 1 1 + qualityScore [⟨"python", 10, 10, 5, 1, true⟩]
      + experienceScore 10
      + criticalScore [⟨"python", 10, 10, 5, 1, true⟩] [⟨"python", 5, true, 1⟩] := by
  norm_num [coverageScore, qualityScore, skillScore, profFactor, expFactor,
    experienceScore, criticalScore, List.countP, List.countP.go]

/-- C1 amended: for nonnegative row attributes and at least one required
row, the four weighted sub-scores sum to at most 156.8 (35 + 96.8 + 20 + 5),
not 100; the quality sub-score alone can reach 96.8. -/
theorem subscores_sum_le_156_8 (ms : List SkillMatch) (req : List RequiredSkill)
    (y : ℚ) (hreq : req ≠ []) (h : NonnegRows ms) :
    coverageScore ms.length req.length + qualityScore ms + experienceScore y
      + criticalScore ms req ≤ 156.8 := by
  have h1 := coverageScore_le ms.length req.length
  have h2 := qualityScore_le h
  have h3 := experienceScore_le y
  have h4 := criticalScore_le ms req
  have : (156.8 : ℚ) = 35 + 96.8 + 20 + 5 := by norm_num
  linarith

/-- C1 witness: the amended bound holds at the 156.8-attaining input. -/
theorem subscores_sum_le_156_8_witness :
    ([⟨"python", 5, true, 1⟩] : List RequiredSkill) ≠ [] ∧
      NonnegRows [⟨"python", 10, 10, 5, 1, true⟩] ∧
      coverageScore 1 1 + qualityScore [⟨"python", 10, 10, 5, 1, true⟩]
        + experienceScore 10
        + criticalScore [⟨"python", 10, 10, 5, 1, true⟩] [⟨"python", 5, true, 1⟩]
        ≤ 156.8 := by
  have hn : NonnegRows [⟨"python", 10, 10, 5, 1, true⟩] := by
    intro m hm
    simp only [List.mem_singleton] at hm
    subst hm
    exact ⟨by norm_num, by norm_num, by norm_num⟩
  refine ⟨List.cons_ne_nil _ _, hn, ?_⟩
  have := subscores_sum_le_156_8 [⟨"python", 10, 10, 5, 1, true⟩]
    [⟨"python", 5, true, 1⟩] 10 (List.cons_ne_nil _ _) hn
  simpa using this

/-- C7: the ranker's output is sorted non-increasing by `match_score`: for
every adjacent pair, the earlier entry's score is ≥ the later entry's. -/
theorem ranker_sorted_desc (candidates : List Candidate)
    (score : Candidate → Except String MatchResult) :
    List.Chain' (fun a b => b.result.match_score ≤ a.result.match_score)
      (getAllCandidatesForJob candidates score) := by
  have hs := List.sorted_insertionSort rankedGE
    (candidates.filterMap (fun c =>
      (score c).toOption.map (fun r => RankedEntry.mk r c.name c.email)))
  exact hs.chain'

/-- C9: an entry appears in the ranker's output exactly when scoring of some
listed candidate succeeded with that result — a candidate whose scoring
fails is skipped while all other candidates are still scored and
returned. -/
theorem ranker_skips_failures (candidates : List Candidate)
    (score : Candidate → Except String MatchResult) (entry : RankedEntry) :
    entry ∈ getAllCandidatesForJob candidates score ↔
      ∃ c ∈ candidates, score c = .ok entry.result ∧ entry.name = c.name
        ∧ entry.email = c.email := by
  simp only [getAllCandidatesForJob, List.mem_insertionSort, List.mem_filterMap]
  constructor
  · rintro ⟨c, hc, hsome⟩
    cases hsc : score c with
    | error e =>
      rw [hsc] at hsome
      simp [Except.toOption] at hsome
    | ok r =>
      rw [hsc] at hsome
      simp only [Except.toOption, Option.map_some', Option.some.injEq] at hsome
      subst hsome
      exact ⟨c, hc, by rw [hsc], rfl, rfl⟩
  · rintro ⟨c, hc, hok, hname, hemail⟩
    refine ⟨c, hc, ?_⟩
    cases entry with
    | mk r n e =>
      simp only at hname hemail
      subst hname
      subst hemail
      simp only at hok
      rw [hok]
      simp [Except.toOption]

theorem upsertSkill_apply_of_mem (st : SkillState) (inp : SkillInput) (now : ℕ)
    (node : SkillNode) (hne : normalizeSkillName inp.name ≠ "")
    (h : st (normalizeSkillName inp.name) = some node) :
    upsertSkill st inp now (normalizeSkillName inp.name)
      = some ⟨node.category, max node.level inp.level, node.created_at⟩ := by
  have hmax : (if node.level < inp.level then inp.level else node.level)
      = max node.level inp.level := by
    rcases le_or_lt inp.level node.level with hle | hlt
    · rw [if_neg (not_lt.mpr hle), max_eq_left hle]
    · rw [if_pos hlt, max_eq_right hlt.le]
  simp [upsertSkill, hne, h, hmax]

theorem upsertSkill_apply_of_none (st : SkillState) (inp : SkillInput) (now : ℕ)
    (hne : normalizeSkillName inp.name ≠ "")
    (h : st (normalizeSkillName inp.name) = none) :
    upsertSkill st inp now (normalizeSkillName inp.name)
      = some ⟨inp.category, inp.level, now⟩ := by
  simp [upsertSkill, hne, h]

theorem le_foldl_max (l : List SkillInput) (a : ℤ) :
    a ≤ l.foldl (fun b i => max b i.level) a := by
  induction l generalizing a with
  | nil => exact le_refl a
  | cons i rest ih => exact le_trans (le_max_left a i.level) (ih (max a i.level))

theorem foldl_max_ge_mem (l : List SkillInput) (a : ℤ) :
    ∀ i ∈ l, i.level ≤ l.foldl (fun b j => max b j.level) a := by
  induction l generalizing a with
  | nil => intro i hi; simp at hi
  | cons j rest ih =>
    intro i hi
    rcases List.mem_cons.mp hi with rfl | hi
    · exact le_trans (le_max_right a i.level) (le_foldl_max rest (max a i.level))
    · exact ih (max a j.level) i hi

theorem foldl_max_mem (l : List SkillInput) (a : ℤ) :
    l.foldl (fun b j => max b j.level) a = a
      ∨ l.foldl (fun b j => max b j.level) a ∈ l.map (·.level) := by
  induction l generalizing a with
  | nil => exact Or.inl rfl
  | cons i rest ih =>
    rcases ih (max a i.level) with h | h
    · rcases le_or_lt i.level a with hle | hlt
      · left
        rw [List.foldl_cons] at *
        rw [h, max_eq_left hle]
      · right
        rw [List.foldl_cons, h, max_eq_right hlt.le]
        exact List.mem_cons_self _ _
    · right
      rw [List.foldl_cons]
      exact List.mem_cons_of_mem _ h

theorem foldl_upsert_level (inps : List SkillInput) (nm : String) (now : ℕ)
    (hne : nm ≠ "") :
    ∀ (st : SkillState) (node : SkillNode),
      (∀ i ∈ inps, normalizeSkillName i.name = nm) → st nm = some node →
      (inps.foldl (fun s i => upsertSkill s i now) st) nm
        = some ⟨node.category, inps.foldl (fun a i => max a i.level) node.level,
            node.created_at⟩ := by
  induction inps with
  | nil =>
    intro st node _ h
    simpa using h
  | cons i rest ih =>
    intro st node hall h
    have hi : normalizeSkillName i.name = nm := hall i (List.mem_cons_self i rest)
    have hstep : upsertSkill st i now nm
        = some ⟨node.category, max node.level i.level, node.created_at⟩ := by
      have := upsertSkill_apply_of_mem st i now node (by rw [hi]; exact hne)
        (by rw [hi]; exact h)
      rwa [hi] at this
    simp only [List.foldl_cons]
    exact ih (upsertSkill st i now) ⟨node.category, max node.level i.level, node.created_at⟩
      (fun j hj => hall j (List.mem_cons_of_mem i hj)) hstep

/-- C5: starting from a graph without the skill node, after a nonempty
sequence of upserts all normalizing to the same canonical name, the stored
level is the running maximum of every level supplied (so it equals one of
the supplied levels, is an upper bound of all of them, never decreases, and
is independent of upsert order and of repetition); the category and
creation time are those of the first upsert. -/
theorem skill_level_is_max_of_all (st : SkillState) (first : SkillInput)
    (rest : List SkillInput) (nm : String) (now : ℕ)
    (hfirst : normalizeSkillName first.name = nm)
    (hrest : ∀ i ∈ rest, normalizeSkillName i.name = nm)
    (hne : nm ≠ "") (h0 : st nm = none) :
    ((first :: rest).foldl (fun s i => upsertSkill s i now) st) nm
      = some ⟨first.category, rest.foldl (fun a i => max a i.level) first.level, now⟩
    ∧ (∀ i ∈ first :: rest,
        i.level ≤ rest.foldl (fun a i => max a i.level) first.level)
    ∧ rest.foldl (fun a i => max a i.level) first.level
        ∈ (first :: rest).map (·.level) := by
  have hcreate : upsertSkill st first now nm
      = some ⟨first.category, first.level, now⟩ := by
    have := upsertSkill_apply_of_none st first now (by rw [hfirst]; exact hne)
      (by rw [hfirst]; exact h0)
    rwa [hfirst] at this
  refine ⟨?_, ?_, ?_⟩
  · simp only [List.foldl_cons]
    exact foldl_upsert_level rest nm now hne (upsertSkill st first now)
      ⟨first.category, first.level, now⟩ hrest hcreate
  · intro i hi
    rcases List.mem_cons.mp hi with rfl | hi
    · exact le_foldl_max rest i.level
    · exact foldl_max_ge_mem rest first.level i hi
  · rcases foldl_max_mem rest first.level with h | h
    · rw [h]
      exact List.mem_cons_self _ _
    · exact List.mem_cons_of_mem _ h

/-- C5 witness: upserting "Python" at level 3 then "python" at level 7 into
an empty graph stores level 7 = max 3 7. -/
theorem skill_level_is_max_of_all_witness :
    (((⟨"Python", "technical", 3⟩ : SkillInput) ::
        [(⟨"python", "technical", 7⟩ : SkillInput)]).foldl
        (fun s i => upsertSkill s i 0) (fun _ => none)) "python"
      = some ⟨"technical", 7, 0⟩ := by
  have h := skill_level_is_max_of_all (fun _ => none) ⟨"Python", "technical", 3⟩
    [⟨"python", "technical", 7⟩] "python" 0 (by decide)
    (by intro i hi; simp only [List.mem_singleton] at hi; subst hi; decide)
    (by decide) rfl
  have h1 := h.1
  simpa using h1

/-- C10: on an upsert whose canonical name already has a node, the node's
category and creation time are left unchanged — even when the upsert
carries a different category — and only the level field changes (to the max
of old and supplied level). -/
theorem upsert_existing_changes_only_level (st : SkillState) (inp : SkillInput)
    (now : ℕ) (node : SkillNode) (hne : normalizeSkillName inp.name ≠ "")
    (h : st (normalizeSkillName inp.name) = some node) :
    (upsertSkill st inp now (normalizeSkillName inp.name)).map (·.category)
        = some node.category
    ∧ (upsertSkill st inp now (normalizeSkillName inp.name)).map (·.created_at)
        = some node.created_at
    ∧ upsertSkill st inp now (normalizeSkillName inp.name)
        = some ⟨node.category, max node.level inp.level, node.created_at⟩ := by
  rw [upsertSkill_apply_of_mem st inp now node hne h]
  exact ⟨rfl, rfl, rfl⟩

/-- C10 witness: re-upserting "python" with category "soft" and level 7 over
a stored node of category "technical", level 3, creation time 0 keeps
category "technical" and creation time 0, changing only the level to 7. -/
theorem upsert_existing_changes_only_level_witness :
    upsertSkill
        (fun n => if n = "python" then some ⟨"technical", 3, 0⟩ else none)
        ⟨"python", "soft", 7⟩ 1 (normalizeSkillName "python")
      = some ⟨"technical", max 3 7, 0⟩ := by
  have h := upsert_existing_changes_only_level
    (fun n => if n = "python" then some ⟨"technical", 3, 0⟩ else none)
    ⟨"python", "soft", 7⟩ 1 ⟨"technical", 3, 0⟩ (by decide) (by decide)
  exact h.2.2

theorem edgeMatches_update (cid nm : String) (e : HasSkillEdge) (p y : ℤ) :
    edgeMatches cid nm { e with proficiency := p, years_experience := y }
      = edgeMatches cid nm e := rfl

theorem linkOneSkill_nodes (g : CandGraph) (cid : String) (s : CandSkillInput)
    (now : ℕ) :
    (linkOneSkill g cid s now).candidateExists = g.candidateExists
      ∧ (linkOneSkill g cid s now).skillExists = g.skillExists := by
  simp only [linkOneSkill]
  repeat' split
  all_goals exact ⟨rfl, rfl⟩

theorem linkOneSkill_establishes (g : CandGraph) (cid : String) (s : CandSkillInput)
    (now : ℕ) (nm : String) (hnm : normalizeSkillName s.name = nm) (hne : nm ≠ "")
    (hc : g.candidateExists cid = true) (hs : g.skillExists nm = true)
    (hcount : g.edges.countP (edgeMatches cid nm) ≤ 1) :
    (linkOneSkill g cid s now).edges.countP (edgeMatches cid nm) = 1
      ∧ ∀ e ∈ (linkOneSkill g cid s now).edges, edgeMatches cid nm e = true →
          e.proficiency = s.proficiency ∧ e.years_experience = s.years_experience := by
  simp only [linkOneSkill, hnm]
  rw [if_neg hne, if_pos (by rw [hc, hs]; rfl)]
  by_cases hany : g.edges.any (edgeMatches cid nm) = true
  · rw [if_pos hany]
    constructor
    · rw [List.countP_map]
      have heq : g.edges.countP ((edgeMatches cid nm) ∘ fun e =>
          if edgeMatches cid nm e then
            { e with proficiency := s.proficiency, years_experience := s.years_experience }
          else e) = g.edges.countP (edgeMatches cid nm) := by
        apply List.countP_congr
        intro e _
        by_cases h0 : edgeMatches cid nm e = true
        · simp only [Function.comp_apply, if_pos h0, edgeMatches_update]
        · simp only [Function.comp_apply, if_neg h0]
      rw [heq]
      have hpos : 0 < g.edges.countP (edgeMatches cid nm) :=
        List.countP_pos_iff.mpr (by simpa using List.any_eq_true.mp hany)
      omega
    · intro e he hme
      obtain ⟨e₀, he₀, rfl⟩ := List.mem_map.mp he
      by_cases h0 : edgeMatches cid nm e₀ = true
      · rw [if_pos h0]
        exact ⟨rfl, rfl⟩
      · rw [if_neg h0] at hme
        exact absurd hme h0
  · rw [if_neg hany]
    have hall : ∀ e ∈ g.edges, ¬(edgeMatches cid nm e = true) := by
      intro e he hcontra
      exact hany (List.any_eq_true.mpr ⟨e, he, hcontra⟩)
    constructor
    · rw [List.countP_append, List.countP_eq_zero.mpr hall, List.countP_singleton,
        if_pos (by simp [edgeMatches])]
    · intro e he hme
      rcases List.mem_append.mp he with h | h
      · exact absurd hme (hall e h)
      · simp only [List.mem_singleton] at h
        subst h
        exact ⟨rfl, rfl⟩

theorem foldl_link_payload (ps : List CandSkillInput) (cid nm : String) (now : ℕ)
    (hne : nm ≠ "") (hall : ∀ p ∈ ps, normalizeSkillName p.name = nm) :
    ∀ (g : CandGraph) (q : CandSkillInput),
      g.candidateExists cid = true → g.skillExists nm = true →
      g.edges.countP (edgeMatches cid nm) = 1 →
      (∀ e ∈ g.edges, edgeMatches cid nm e = true →
        e.proficiency = q.proficiency ∧ e.years_experience = q.years_experience) →
      (ps.foldl (fun acc p => linkOneSkill acc cid p now) g).edges.countP
          (edgeMatches cid nm) = 1
      ∧ ∀ e ∈ (ps.foldl (fun acc p => linkOneSkill acc cid p now) g).edges,
          edgeMatches cid nm e = true →
          e.proficiency = (ps.getLastD q).proficiency
            ∧ e.years_experience = (ps.getLastD q).years_experience := by
  induction ps with
  | nil =>
    intro g q _ _ hcount hpay
    exact ⟨hcount, by simpa using hpay⟩
  | cons p rest ih =>
    intro g q hc hs hcount hpay
    have hp := hall p (List.mem_cons_self p rest)
    have hest := linkOneSkill_establishes g cid p now nm hp hne hc hs (le_of_eq hcount)
    have hnodes := linkOneSkill_nodes g cid p now
    simp only [List.foldl_cons, List.getLastD_cons]
    exact ih (fun j hj => hall j (List.mem_cons_of_mem p hj))
      (linkOneSkill g cid p now) p (by rw [hnodes.1]; exact hc)
      (by rw [hnodes.2]; exact hs) hest.1 hest.2

theorem linkOneSkill_idem (g : CandGraph) (cid : String) (q : CandSkillInput)
    (now : ℕ) :
    linkOneSkill (linkOneSkill g cid q now) cid q now = linkOneSkill g cid q now := by
  by_cases hne : normalizeSkillName q.name = ""
  · simp [linkOneSkill, hne]
  · by_cases hguard :
      (g.candidateExists cid && g.skillExists (normalizeSkillName q.name)) = true
    · by_cases hany : g.edges.any (edgeMatches cid (normalizeSkillName q.name)) = true
      · have hg1 : linkOneSkill g cid q now = { g with edges := g.edges.map (fun e => if edgeMatches cid (normalizeSkillName q.name) e then { e with proficiency := q.proficiency, years_experience := q.years_experience } else e) } := by
          simp only [linkOneSkill]
          rw [if_neg hne, if_pos hguard, if_pos hany]
        rw [hg1]
        simp only [linkOneSkill]
        rw [if_neg hne, if_pos hguard]
        have hany1 : (g.edges.map (fun e => if edgeMatches cid (normalizeSkillName q.name) e then { e with proficiency := q.proficiency, years_experience := q.years_experience } else e)).any (edgeMatches cid (normalizeSkillName q.name)) = true := by
          obtain ⟨e, he, hpe⟩ := List.any_eq_true.mp hany
          refine List.any_eq_true.mpr ⟨_, List.mem_map_of_mem _ he, ?_⟩
          by_cases h0 : edgeMatches cid (normalizeSkillName q.name) e = true
          · rw [if_pos h0, edgeMatches_update]
            exact hpe
          · exact absurd hpe h0
        rw [if_pos hany1]
        congr 1
        rw [List.map_map]
        apply List.map_congr_left
        intro e _
        by_cases h0 : edgeMatches cid (normalizeSkillName q.name) e = true
        · simp only [Function.comp_apply, if_pos h0, edgeMatches_update, if_pos h0]
        · simp only [Function.comp_apply, if_neg h0, if_neg h0]
      · have hg1 : linkOneSkill g cid q now = { g with edges := g.edges ++
            [(⟨cid, normalizeSkillName q.name, q.proficiency, q.years_experience,
              now⟩ : HasSkillEdge)] } := by
          simp only [linkOneSkill]
          rw [if_neg hne, if_pos hguard, if_neg hany]
        rw [hg1]
        simp only [linkOneSkill]
        rw [if_neg hne, if_pos hguard]
        have hany1 : (g.edges ++
            [(⟨cid, normalizeSkillName q.name, q.proficiency, q.years_experience,
              now⟩ : HasSkillEdge)]).any
            (edgeMatches cid (normalizeSkillName q.name)) = true := by
          refine List.any_eq_true.mpr
            ⟨⟨cid, normalizeSkillName q.name, q.proficiency, q.years_experience, now⟩,
              ?_, ?_⟩
          · exact List.mem_append_right _ (List.mem_singleton_self _)
          · simp [edgeMatches]
        rw [if_pos hany1]
        congr 1
        rw [List.map_append]
        have h1 : g.edges.map (fun e => if edgeMatches cid (normalizeSkillName q.name) e then { e with proficiency := q.proficiency, years_experience := q.years_experience } else e) = g.edges := by
          have hall : ∀ e ∈ g.edges, ¬(edgeMatches cid (normalizeSkillName q.name) e = true) :=
            fun e he hcontra => hany (List.any_eq_true.mpr ⟨e, he, hcontra⟩)
          calc g.edges.map _ = g.edges.map id :=
                List.map_congr_left (fun e he => by rw [if_neg (hall e he)]; rfl)
            _ = g.edges := List.map_id g.edges
        rw [h1]
        simp [edgeMatches]
    · have hg1 : linkOneSkill g cid q now = g := by
        simp only [linkOneSkill]
        rw [if_neg hne, if_neg hguard]
      rw [hg1, hg1]

/-- C6: for a candidate and skill whose nodes exist, after a nonempty
sequence of `link_candidate_skills` calls for the same pair (starting from a
graph with at most one edge for the pair), exactly one `HAS_SKILL` edge
exists between them, its proficiency and years equal the most recent call's
values, and one linking step is idempotent: applying the same payload twice
equals applying it once. -/
theorem link_candidate_skill_unique_edge (g : CandGraph) (cid : String)
    (first : CandSkillInput) (rest : List CandSkillInput) (nm : String) (now : ℕ)
    (hfirst : normalizeSkillName first.name = nm)
    (hrest : ∀ p ∈ rest, normalizeSkillName p.name = nm)
    (hne : nm ≠ "") (hc : g.candidateExists cid = true) (hs : g.skillExists nm = true)
    (hcount : g.edges.countP (edgeMatches cid nm) ≤ 1) :
    ((first :: rest).foldl (fun acc p => linkOneSkill acc cid p now) g).edges.countP
        (edgeMatches cid nm) = 1
    ∧ (∀ e ∈ ((first :: rest).foldl (fun acc p => linkOneSkill acc cid p now) g).edges,
        edgeMatches cid nm e = true →
        e.proficiency = (rest.getLastD first).proficiency
          ∧ e.years_experience = (rest.getLastD first).years_experience)
    ∧ ∀ q : CandSkillInput,
        linkOneSkill (linkOneSkill g cid q now) cid q now
          = linkOneSkill g cid q now := by
  have hest := linkOneSkill_establishes g cid first now nm hfirst hne hc hs hcount
  have hnodes := linkOneSkill_nodes g cid first now
  have hmain := foldl_link_payload rest cid nm now hne hrest
    (linkOneSkill g cid first now) first (by rw [hnodes.1]; exact hc)
    (by rw [hnodes.2]; exact hs) hest.1 hest.2
  simp only [List.foldl_cons]
  exact ⟨hmain.1, hmain.2, fun q => linkOneSkill_idem g cid q now⟩

/-- C6 witness: linking "Python" (proficiency 5, years 2) then "python"
(proficiency 8, years 3) for candidate "c1" leaves exactly one edge, holding
the latest payload (8, 3). -/
theorem link_candidate_skill_unique_edge_witness :
    (((⟨"Python", 5, 2⟩ : CandSkillInput) :: [(⟨"python", 8, 3⟩ : CandSkillInput)]).foldl
        (fun acc p => linkOneSkill acc "c1" p 0)
        ⟨fun c => c == "c1", fun s => s == "python", []⟩).edges.countP
        (edgeMatches "c1" "python") = 1
    ∧ ∀ e ∈ (((⟨"Python", 5, 2⟩ : CandSkillInput) ::
          [(⟨"python", 8, 3⟩ : CandSkillInput)]).foldl
          (fun acc p => linkOneSkill acc "c1" p 0)
          ⟨fun c => c == "c1", fun s => s == "python", []⟩).edges,
        edgeMatches "c1" "python" e = true →
        e.proficiency = 8 ∧ e.years_experience = 3 := by
  have h := link_candidate_skill_unique_edge
    ⟨fun c => c == "c1", fun s => s == "python", []⟩ "c1" ⟨"Python", 5, 2⟩
    [⟨"python", 8, 3⟩] "python" 0 (by decide)
    (by intro p hp; simp only [List.mem_singleton] at hp; subst hp; decide)
    (by decide) rfl rfl (by decide)
  exact ⟨h.1, fun e he hm => by simpa using h.2.1 e he hm⟩

end CVSnap
